import Mathlib

/-!
Verification development for a BM25 lexical retriever
(source: src/src/retriever.rs).

Modelling conventions:

* `TermId` and `DocId` are natural numbers (the Rust code uses `usize`).
* All `f32` scoring arithmetic is idealized as exact arithmetic in a linear
  ordered field `K`; theorems about the concrete score formulas instantiate
  `K := ℝ`.  The natural logarithm used by `compute_idf_array` is passed in
  as a parameter `log : ℕ → K` (instantiated with `Real.log ∘ Nat.cast`
  in the real-valued theorems), so that every definition stays computable
  and can be evaluated at `K := ℚ` for structural properties.
* Rust `HashMap`s are modelled as total functions with default 0
  (document frequencies) or as association lists (the vocabulary).
  The iteration order of the per-document tally `term_count` is
  unspecified in Rust; the model fixes the `List.dedup` order.  This is
  harmless: the triplet order within one document never matters downstream
  because the CSC conversion groups by column, and each (row, column) pair
  occurs at most once.
* Fallible behaviour is made explicit: `internal_top_n` returns
  `Option`, with `none` exactly where the Rust code panics
  (the `k - 1` usize underflow in `kth_by(&mut indexed_scores, k - 1, ..)`
  when `k = n.min(self.n_docs) = 0` and the query is non-empty).
-/

namespace BM25

/-- A tokenized corpus: one `TermId` sequence per document, in `DocId` order. -/
abbrev Corpus := List (List ℕ)

/-- Modelled from the spec: the external tokenizer (`crate::tokenizer`, not part
of the sources under review) returns a tokenized corpus together with a
vocabulary mapping surface forms to dense `TermId`s.  The `Vocab` HashMap is
modelled as an association list. -/
structure TokenizeOutput where
  corpus : Corpus
  vocab : List (String × ℕ)

/-- Well-formedness of a tokenizer output, from the spec contract (§6, §3):
TermIds are dense in `[0, V)`, and every `TermId` below `V` is the identifier
of some surface token seen in the corpus at index time. -/
def TokenizeOutput.WF (out : TokenizeOutput) : Prop :=
  (∀ doc ∈ out.corpus, ∀ t ∈ doc, t < out.vocab.length) ∧
  (∀ p ∈ out.vocab, p.2 < out.vocab.length) ∧
  (∀ v < out.vocab.length, ∃ doc ∈ out.corpus, v ∈ doc)

instance (out : TokenizeOutput) : Decidable out.WF := by
  unfold TokenizeOutput.WF
  infer_instance

/-- Per-document tally of `compute_frequencies`: for each distinct term of the
document, its occurrence count (the Rust code stores the counts as `f32`;
the cast happens at use sites of the model). -/
def term_count (doc : List ℕ) : List (ℕ × ℕ) :=
  doc.dedup.map (fun t => (t, doc.count t))

/-- The document-frequency map of `compute_frequencies`: folded over the corpus,
incremented once per distinct term per document (`doc_frequencies.entry(..)
.and_modify(|c| *c += 1).or_insert(1)`). -/
def doc_frequencies (corpus : Corpus) : ℕ → ℕ :=
  corpus.foldl
    (fun df doc => fun t => if t ∈ doc.dedup then df t + 1 else df t)
    (fun _ => 0)

/-- One entry of `compute_idf_array`: the array starts at zero everywhere and is
overwritten at every key of the document-frequency map (exactly the terms with
positive document frequency) with `ln(n_docs) − ln(df t)`. -/
def idf_entry {K : Type} [LinearOrderedField K]
    (log : ℕ → K) (n_docs : ℕ) (df : ℕ → ℕ) (t : ℕ) : K :=
  if df t = 0 then 0 else log n_docs - log (df t)

/-- `compute_idf_array`: the dense IDF array of length `n_terms`. -/
def compute_idf_array {K : Type} [LinearOrderedField K]
    (log : ℕ → K) (n_terms n_docs : ℕ) (df : ℕ → ℕ) : List K :=
  (List.range n_terms).map (idf_entry log n_docs df)

/-- The pre-baked BM25 contribution computed inside `prepare_sparse_matrix`:
`idf[t] * ((tf * (k1+1)) / (tf + k1 * (1 - b + b * doc_length / avg_doc_len)))`
(the code computes `tfc` first and then multiplies by the idf lookup). -/
def score_val {K : Type} [LinearOrderedField K]
    (k1 b avg : K) (idf : ℕ → K) (t tf len : ℕ) : K :=
  idf t * (((tf : K) * (k1 + 1)) /
    ((tf : K) + k1 * (1 - b + b * (len : K) / avg)))

/-- The triplets contributed by document `i`: one `(row, col, value)` per
distinct term of the document (the code writes slices `rows[start..end] = i`,
`cols[start..end] = terms`, `scores[start..end] = score`). -/
def doc_triplets {K : Type} [LinearOrderedField K]
    (k1 b avg : K) (idf : ℕ → K) (i : ℕ) (doc : List ℕ) : List (ℕ × ℕ × K) :=
  (term_count doc).map
    (fun p => (i, p.1, score_val k1 b avg idf p.1 p.2 doc.length))

/-- `prepare_sparse_matrix`: the full triplet list, documents visited in order
with a running row index (the preallocated parallel buffers and the running
offset `step` of the code correspond to concatenation in input order). -/
def prepare_sparse_matrix {K : Type} [LinearOrderedField K]
    (k1 b avg : K) (idf : ℕ → K) : ℕ → Corpus → List (ℕ × ℕ × K)
  | _, [] => []
  | i, doc :: rest =>
      doc_triplets k1 b avg idf i doc ++
        prepare_sparse_matrix k1 b avg idf (i + 1) rest

/-- A column-compressed sparse matrix: per column, the contiguous list of
(row index, value) pairs.  `cols` plays the role of the
(indptr, indices, data) arrays of `sprs::CsMat`: the slice
`indptr[t] .. indptr[t+1]` of `indices`/`data` is exactly `cols[t]`. -/
structure CsMat (K : Type) where
  nrows : ℕ
  ncols : ℕ
  cols : List (List (ℕ × K))

/-- `TriMat::from_triplets(..).to_csc()`: group the triplets by column.  Rows
within a column appear in increasing order because `prepare_sparse_matrix`
emits rows in increasing order, and no (row, col) duplicates exist, so the
summing of duplicates performed by `sprs` is the identity here. -/
def to_csc {K : Type} [LinearOrderedField K]
    (nrows ncols : ℕ) (trip : List (ℕ × ℕ × K)) : CsMat K :=
  ⟨nrows, ncols,
    (List.range ncols).map
      (fun t => (trip.filter (fun e => e.2.1 = t)).map (fun e => (e.1, e.2.2)))⟩

/-- The column slice of a CSC matrix (`indptr[t] .. indptr[t+1]`). -/
def CsMat.column {K : Type} (m : CsMat K) (t : ℕ) : List (ℕ × K) :=
  m.cols.getD t []

/-- The value stored at `(d, t)`: sum of the column-`t` entries with row `d`
(at most one such entry exists in a matrix built by `to_csc` from
duplicate-free triplets; absent entries read as 0). -/
def CsMat.entry {K : Type} [LinearOrderedField K] (m : CsMat K) (d t : ℕ) : K :=
  (((m.column t).filter (fun p => p.1 = d)).map Prod.snd).sum

/-- Number of stored entries of the matrix. -/
def CsMat.nnz {K : Type} (m : CsMat K) : ℕ :=
  (m.cols.map List.length).sum

/-- The retriever state: BM25 parameters, vocabulary, document count and the
pre-baked score matrix (the `tokenizer` field of the Rust struct is the
external collaborator and carries no model state). -/
structure Retriever (K : Type) where
  k1 : K
  b : K
  vocab : List (String × ℕ)
  n_docs : ℕ
  score_matrix : CsMat K

/-- `Retriever::new`: empty vocabulary, zero documents, empty CSC matrix. -/
def Retriever.new {K : Type} (k1 b : K) : Retriever K :=
  ⟨k1, b, [], 0, ⟨0, 0, []⟩⟩

/-- The average document length of `internal_index`:
`doc_lengths.iter().sum::<f32>() / (doc_lengths.len() as f32)` where
`doc_lengths` is the per-document token count (duplicates included).  When
the corpus is empty this is `0/0` (`NaN` in the `f32` code, `0` in the field
`K`); it is never read in that case because the triplet list is empty. -/
def avg_doc_len {K : Type} [LinearOrderedField K] (corpus : Corpus) : K :=
  (corpus.map (fun doc => (doc.length : K))).sum
    / ((corpus.map (fun doc => (doc.length : K))).length : K)

/-- The idf lookup `idf_array[term]` used by `prepare_sparse_matrix`, over the
array built by `compute_idf_array` with the indexer's arguments. -/
def idf_lookup {K : Type} [LinearOrderedField K]
    (log : ℕ → K) (out : TokenizeOutput) : ℕ → K :=
  fun t => (compute_idf_array log out.vocab.length out.corpus.length
    (doc_frequencies out.corpus)).getD t 0

/-- The CSC score matrix built by `internal_index`. -/
def built_matrix {K : Type} [LinearOrderedField K]
    (log : ℕ → K) (k1 b : K) (out : TokenizeOutput) : CsMat K :=
  to_csc out.corpus.length out.vocab.length
    (prepare_sparse_matrix k1 b (avg_doc_len out.corpus) (idf_lookup log out)
      0 out.corpus)

/-- `internal_index` on a tokenizer output: compute frequencies, document
lengths, the average document length, the IDF array, the scored triplets, and
convert to CSC. -/
def internal_index {K : Type} [LinearOrderedField K]
    (log : ℕ → K) (k1 b : K) (out : TokenizeOutput) : Retriever K :=
  ⟨k1, b, out.vocab, out.corpus.length, built_matrix log k1 b out⟩

/-- The vocabulary-resolution step of `internal_top_n`:
`tokenized_query.iter().filter_map(|term| self.vocab.get(term).cloned())`.
The surface-token sequence produced by the external tokenizer's
`perform_simple` is taken as input (modelled from the spec: query
tokenization is the collaborator's concern, §6). -/
def resolve (vocab : List (String × ℕ)) (tokens : List String) : List ℕ :=
  tokens.filterMap (fun tok => (vocab.find? (fun p => p.1 = tok)).map Prod.snd)

/-- Adding one posting-list column into the dense accumulator:
`for (&doc_idx, &score) in .. { scores[doc_idx] += score; }`. -/
def add_column {K : Type} [LinearOrderedField K]
    (s : List K) (col : List (ℕ × K)) : List K :=
  col.foldl (fun s p => s.set p.1 (s.getD p.1 0 + p.2)) s

/-- The dense accumulator after walking all query-term columns, starting from
`vec![0.0; self.n_docs]`. -/
def accumulate_scores {K : Type} [LinearOrderedField K]
    (m : CsMat K) (n_docs : ℕ) (Q : List ℕ) : List K :=
  Q.foldl (fun s t => add_column s (m.column t)) (List.replicate n_docs 0)

/-- Deterministic model of `order_stat::kth_by(&mut v, k-1, cmp)` followed by
`v[..k].to_vec()`: a full sort under the comparator
`|a, b| b.1.partial_cmp(&a.1).unwrap()` (descending score) and then the first
`k` elements.  `kth_by` only guarantees that the first `k` positions hold the
top-`k` under the comparator in unspecified internal order; a stable full sort
is one refinement of that contract, and no theorem below depends on the order
within the selected first `k` positions.  The comparator never sees `NaN` in
this exact-arithmetic model, so the `unwrap` never panics. -/
def select_top {K : Type} [LinearOrderedField K]
    (k : ℕ) (l : List (ℕ × K)) : List (ℕ × K) :=
  (l.insertionSort (fun a b => b.2 ≤ a.2)).take k

/-- `internal_top_n` on an already-resolved query `Q`.  Returns `none` exactly
where the Rust code panics: when `Q` is non-empty and
`k = n.min(self.n_docs) = 0`, the expression `k - 1` underflows `usize`
(debug: arithmetic panic; release: `kth_by` receives an out-of-range index
and panics). -/
def internal_top_n {K : Type} [LinearOrderedField K]
    (r : Retriever K) (Q : List ℕ) (n : ℕ) : Option (List (ℕ × K)) :=
  if Q = [] then some []
  else if min n r.n_docs = 0 then none
  else some (select_top (min n r.n_docs)
    (accumulate_scores r.score_matrix r.n_docs Q).enum)

/-- `top_n`: resolve the query tokens against the vocabulary, then run
`internal_top_n`. -/
def top_n {K : Type} [LinearOrderedField K]
    (r : Retriever K) (tokens : List String) (n : ℕ) : Option (List (ℕ × K)) :=
  internal_top_n r (resolve r.vocab tokens) n

/-- `top_n_batched`: `queries.par_iter().map(|q| self.internal_top_n(q, n))
.collect()`.  Rayon's indexed parallel collect returns results in input
order, which the sequential `List.map` models. -/
def top_n_batched {K : Type} [LinearOrderedField K]
    (r : Retriever K) (queries : List (List String)) (n : ℕ) :
    List (Option (List (ℕ × K))) :=
  queries.map (fun q => top_n r q n)

/-! ### Basic lemmas about the statistics builder -/

theorem doc_frequencies_eq_countP (corpus : Corpus) (t : ℕ) :
    doc_frequencies corpus t = corpus.countP (fun doc => decide (t ∈ doc)) := by
  suffices h : ∀ (l : Corpus) (g : ℕ → ℕ),
      (l.foldl (fun df doc => fun u => if u ∈ doc.dedup then df u + 1 else df u) g) t
        = g t + l.countP (fun doc => decide (t ∈ doc)) by
    simpa [doc_frequencies] using h corpus (fun _ => 0)
  intro l
  induction l with
  | nil => intro g; simp
  | cons doc rest ih =>
      intro g
      rw [List.foldl_cons, ih, List.countP_cons]
      by_cases hmem : t ∈ doc
      · simp only [List.mem_dedup, hmem, if_true, decide_True, if_pos]
        omega
      · simp only [List.mem_dedup, hmem, if_false, decide_False]
        simp only [Bool.false_eq_true, if_false]
        omega

theorem doc_frequencies_pos_iff (corpus : Corpus) (t : ℕ) :
    0 < doc_frequencies corpus t ↔ ∃ doc ∈ corpus, t ∈ doc := by
  rw [doc_frequencies_eq_countP, List.countP_pos_iff]
  simp

theorem nodup_filter_key {β : Type} (f : ℕ → β) (t : ℕ) :
    ∀ (l : List ℕ), l.Nodup →
      (l.map (fun u => (u, f u))).filter (fun p => decide (p.1 = t))
        = if t ∈ l then [(t, f t)] else [] := by
  intro l
  induction l with
  | nil => intro _; simp
  | cons u rest ih =>
      intro hnd
      rcases List.nodup_cons.mp hnd with ⟨hu, hrest⟩
      rw [List.map_cons, List.filter_cons]
      by_cases hut : u = t
      · subst hut
        rw [if_pos (by simp), ih hrest, if_neg hu,
          if_pos (List.mem_cons_self u rest)]
      · have hne : t ≠ u := fun h => hut h.symm
        rw [if_neg (by simp [hut]), ih hrest]
        by_cases htr : t ∈ rest
        · rw [if_pos htr, if_pos (List.mem_cons_of_mem u htr)]
        · rw [if_neg htr, if_neg (by simp [List.mem_cons, hne, htr])]

theorem term_count_filter (doc : List ℕ) (t : ℕ) :
    (term_count doc).filter (fun p => decide (p.1 = t))
      = if t ∈ doc then [(t, doc.count t)] else [] := by
  have h := nodup_filter_key (fun u => doc.count u) t doc.dedup (List.nodup_dedup doc)
  simpa [term_count, List.mem_dedup] using h

/-! ### Lemmas about the triplet construction -/

theorem row_bounds_prepare {K : Type} [LinearOrderedField K]
    (k1 b avg : K) (idf : ℕ → K) :
    ∀ (docs : Corpus) (i : ℕ) (e : ℕ × ℕ × K),
      e ∈ prepare_sparse_matrix k1 b avg idf i docs →
        i ≤ e.1 ∧ e.1 < i + docs.length := by
  intro docs
  induction docs with
  | nil =>
      intro i e he
      simp [prepare_sparse_matrix] at he
  | cons doc rest ih =>
      intro i e he
      simp only [prepare_sparse_matrix] at he
      rcases List.mem_append.mp he with h | h
      · rcases List.mem_map.mp h with ⟨p, _, rfl⟩
        simp only [List.length_cons]
        omega
      · have := ih (i + 1) e h
        simp only [List.length_cons]
        omega

theorem prepare_filter_pair {K : Type} [LinearOrderedField K]
    (k1 b avg : K) (idf : ℕ → K) (t : ℕ) :
    ∀ (docs : Corpus) (i d : ℕ),
      (prepare_sparse_matrix k1 b avg idf i docs).filter
          (fun e => decide (e.1 = i + d) && decide (e.2.1 = t))
        = if t ∈ docs.getD d [] then
            [(i + d, t, score_val k1 b avg idf t ((docs.getD d []).count t)
                (docs.getD d []).length)]
          else [] := by
  intro docs
  induction docs with
  | nil =>
      intro i d
      simp [prepare_sparse_matrix]
  | cons doc rest ih =>
      intro i d
      simp only [prepare_sparse_matrix, List.filter_append]
      cases d with
      | zero =>
          have h2 : (prepare_sparse_matrix k1 b avg idf (i + 1) rest).filter
              (fun e => decide (e.1 = i + 0) && decide (e.2.1 = t)) = [] := by
            rw [List.filter_eq_nil_iff]
            intro e he
            have hb := (row_bounds_prepare k1 b avg idf rest (i + 1) e he).1
            simp only [Bool.and_eq_true, decide_eq_true_eq, not_and]
            intro h1
            omega
          rw [h2, List.append_nil]
          rw [doc_triplets, List.filter_map]
          have hcomp :
              ((fun e : ℕ × ℕ × K => decide (e.1 = i + 0) && decide (e.2.1 = t)) ∘
                (fun p : ℕ × ℕ =>
                  ((i, p.1, score_val k1 b avg idf p.1 p.2 doc.length) : ℕ × ℕ × K)))
              = fun p : ℕ × ℕ => decide (p.1 = t) := by
            funext p
            simp
          rw [hcomp, term_count_filter]
          by_cases hmem : t ∈ doc
          · simp [hmem]
          · simp [hmem]
      | succ d =>
          have h1 : (doc_triplets k1 b avg idf i doc).filter
              (fun e => decide (e.1 = i + (d + 1)) && decide (e.2.1 = t)) = [] := by
            rw [List.filter_eq_nil_iff]
            intro e he
            rcases List.mem_map.mp he with ⟨p, _, rfl⟩
            simp only [Bool.and_eq_true, decide_eq_true_eq, not_and]
            intro h1
            omega
          rw [h1, List.nil_append]
          have harith : i + (d + 1) = (i + 1) + d := by omega
          rw [harith, ih (i + 1) d, List.getD_cons_succ]

/-! ### Lemmas about the CSC conversion -/

theorem getD_map_range {β : Type} (f : ℕ → β) (n t : ℕ) (dflt : β) (h : t < n) :
    ((List.range n).map f).getD t dflt = f t := by
  rw [List.getD_eq_getElem _ _ (by simpa using h)]
  rw [List.getElem_map, List.getElem_range]

theorem column_to_csc {K : Type} [LinearOrderedField K]
    (N V : ℕ) (trip : List (ℕ × ℕ × K)) (t : ℕ) (h : t < V) :
    (to_csc N V trip).column t
      = (trip.filter (fun e => decide (e.2.1 = t))).map (fun e => (e.1, e.2.2)) := by
  show ((List.range V).map _).getD t [] = _
  rw [getD_map_range _ _ _ _ h]

theorem column_to_csc_oob {K : Type} [LinearOrderedField K]
    (N V : ℕ) (trip : List (ℕ × ℕ × K)) (t : ℕ) (h : V ≤ t) :
    (to_csc N V trip).column t = [] := by
  show ((List.range V).map _).getD t [] = _
  rw [List.getD_eq_default]
  simpa using h

theorem entry_built {K : Type} [LinearOrderedField K]
    (k1 b avg : K) (idf : ℕ → K) (corpus : Corpus) (V d t : ℕ) (ht : t < V) :
    (to_csc corpus.length V
        (prepare_sparse_matrix k1 b avg idf 0 corpus)).entry d t
      = if t ∈ corpus.getD d [] then
          score_val k1 b avg idf t ((corpus.getD d []).count t)
            (corpus.getD d []).length
        else 0 := by
  rw [CsMat.entry, column_to_csc _ _ _ _ ht, List.filter_map]
  have hcomp : ((fun p : ℕ × K => decide (p.1 = d)) ∘
      (fun e : ℕ × ℕ × K => (e.1, e.2.2))) = fun e : ℕ × ℕ × K => decide (e.1 = d) :=
    rfl
  rw [hcomp, List.filter_filter]
  have hpair := prepare_filter_pair k1 b avg idf t corpus 0 d
  simp only [Nat.zero_add] at hpair
  rw [hpair]
  by_cases hmem : t ∈ corpus.getD d []
  · rw [if_pos hmem, if_pos hmem]
    simp
  · rw [if_neg hmem, if_neg hmem]
    simp

theorem countP_doc_triplets_col {K : Type} [LinearOrderedField K]
    (k1 b avg : K) (idf : ℕ → K) (i : ℕ) (doc : List ℕ) (t : ℕ) :
    (doc_triplets k1 b avg idf i doc).countP (fun e => decide (e.2.1 = t))
      = if t ∈ doc then 1 else 0 := by
  rw [doc_triplets, List.countP_map]
  have hcomp : ((fun e : ℕ × ℕ × K => decide (e.2.1 = t)) ∘
      (fun p : ℕ × ℕ =>
        ((i, p.1, score_val k1 b avg idf p.1 p.2 doc.length) : ℕ × ℕ × K)))
      = fun p : ℕ × ℕ => decide (p.1 = t) := rfl
  rw [hcomp, List.countP_eq_length_filter, term_count_filter]
  by_cases hmem : t ∈ doc
  · simp [hmem]
  · simp [hmem]

theorem countP_prepare_col {K : Type} [LinearOrderedField K]
    (k1 b avg : K) (idf : ℕ → K) (t : ℕ) :
    ∀ (docs : Corpus) (i : ℕ),
      (prepare_sparse_matrix k1 b avg idf i docs).countP
          (fun e => decide (e.2.1 = t))
        = docs.countP (fun doc => decide (t ∈ doc)) := by
  intro docs
  induction docs with
  | nil =>
      intro i
      simp [prepare_sparse_matrix]
  | cons doc rest ih =>
      intro i
      simp only [prepare_sparse_matrix, List.countP_append, List.countP_cons,
        countP_doc_triplets_col, ih (i + 1)]
      by_cases hmem : t ∈ doc
      · simp [hmem]
        omega
      · simp [hmem]

theorem column_length_built {K : Type} [LinearOrderedField K]
    (k1 b avg : K) (idf : ℕ → K) (corpus : Corpus) (N V t : ℕ) (ht : t < V) :
    ((to_csc N V (prepare_sparse_matrix k1 b avg idf 0 corpus)).column t).length
      = doc_frequencies corpus t := by
  rw [column_to_csc _ _ _ _ ht, List.length_map, ← List.countP_eq_length_filter,
    countP_prepare_col, doc_frequencies_eq_countP]

theorem nnz_built {K : Type} [LinearOrderedField K]
    (k1 b avg : K) (idf : ℕ → K) (corpus : Corpus) (N V : ℕ) :
    (to_csc N V (prepare_sparse_matrix k1 b avg idf 0 corpus)).nnz
      = ((List.range V).map (doc_frequencies corpus)).sum := by
  rw [CsMat.nnz]
  show (((List.range V).map _).map List.length).sum = _
  rw [List.map_map]
  congr 1
  apply List.map_congr_left
  intro t _
  show ((prepare_sparse_matrix k1 b avg idf 0 corpus).filter
      (fun e => decide (e.2.1 = t)) |>.map _).length = _
  rw [List.length_map, ← List.countP_eq_length_filter, countP_prepare_col,
    doc_frequencies_eq_countP]

/-! ### Lemmas about the dense accumulator of the query path -/

theorem length_add_column {K : Type} [LinearOrderedField K]
    (col : List (ℕ × K)) (s : List K) : (add_column s col).length = s.length := by
  induction col generalizing s with
  | nil => rfl
  | cons p col ih =>
      show (add_column (s.set p.1 (s.getD p.1 0 + p.2)) col).length = s.length
      rw [ih, List.length_set]

theorem getD_add_column {K : Type} [LinearOrderedField K]
    (col : List (ℕ × K)) (s : List K) (d : ℕ) (hd : d < s.length) :
    (add_column s col).getD d 0
      = s.getD d 0 + ((col.filter (fun p => decide (p.1 = d))).map Prod.snd).sum := by
  induction col generalizing s with
  | nil => simp [add_column]
  | cons p col ih =>
      have hd2 : d < (s.set p.1 (s.getD p.1 0 + p.2)).length := by
        rwa [List.length_set]
      show (add_column (s.set p.1 (s.getD p.1 0 + p.2)) col).getD d 0 = _
      rw [ih _ hd2, List.filter_cons]
      by_cases hpd : p.1 = d
      · have hset : (s.set p.1 (s.getD p.1 0 + p.2)).getD d 0
            = s.getD d 0 + p.2 := by
          rw [List.getD_eq_getElem?_getD, hpd,
            List.getElem?_set_self (by omega), Option.getD_some]
        rw [if_pos (by simp [hpd]), hset]
        simp only [List.map_cons, List.sum_cons]
        ring
      · have hset : (s.set p.1 (s.getD p.1 0 + p.2)).getD d 0 = s.getD d 0 := by
          rw [List.getD_eq_getElem?_getD, List.getElem?_set_ne hpd,
            ← List.getD_eq_getElem?_getD]
        rw [if_neg (by simp [hpd]), hset]

theorem length_accumulate {K : Type} [LinearOrderedField K]
    (m : CsMat K) (n_docs : ℕ) (Q : List ℕ) :
    (accumulate_scores m n_docs Q).length = n_docs := by
  suffices h : ∀ (l : List ℕ) (s : List K),
      (l.foldl (fun s t => add_column s (m.column t)) s).length = s.length by
    rw [accumulate_scores, h, List.length_replicate]
  intro l
  induction l with
  | nil => intro s; rfl
  | cons t l ih =>
      intro s
      rw [List.foldl_cons, ih, length_add_column]

theorem getD_accumulate {K : Type} [LinearOrderedField K]
    (m : CsMat K) (n_docs : ℕ) (Q : List ℕ) (d : ℕ) (hd : d < n_docs) :
    (accumulate_scores m n_docs Q).getD d 0
      = (Q.map (fun t => m.entry d t)).sum := by
  suffices h : ∀ (l : List ℕ) (s : List K), d < s.length →
      (l.foldl (fun s t => add_column s (m.column t)) s).getD d 0
        = s.getD d 0 + (l.map (fun t => m.entry d t)).sum by
    have hrep : (List.replicate n_docs (0 : K)).getD d 0 = 0 := by
      rw [List.getD_eq_getElem _ _ (by simpa using hd), List.getElem_replicate]
    rw [accumulate_scores, h Q _ (by simpa using hd), hrep, zero_add]
  intro l
  induction l with
  | nil =>
      intro s _
      simp
  | cons t l ih =>
      intro s hs
      rw [List.foldl_cons, ih _ (by rwa [length_add_column]),
        getD_add_column _ _ _ hs]
      simp only [List.map_cons, List.sum_cons, CsMat.entry]
      ring

theorem sum_eq_sum_getD {K : Type} [LinearOrderedField K] (s : List K) :
    s.sum = ((List.range s.length).map (fun d => s.getD d 0)).sum := by
  induction s with
  | nil => simp
  | cons a s ih =>
      rw [List.sum_cons, List.length_cons, List.range_succ_eq_map,
        List.map_cons, List.map_map, List.sum_cons, List.getD_cons_zero]
      have hmap : (List.range s.length).map
            ((fun d => (a :: s).getD d 0) ∘ Nat.succ)
          = (List.range s.length).map (fun d => s.getD d 0) := by
        apply List.map_congr_left
        intro d _
        show (a :: s).getD (d + 1) 0 = s.getD d 0
        rw [List.getD_cons_succ]
      rw [hmap, ← ih]

/-! ### Lemmas about query resolution and top-k selection -/

theorem resolve_eq_nil_of_misses (vocab : List (String × ℕ))
    (tokens : List String)
    (h : ∀ tok ∈ tokens, vocab.find? (fun p => p.1 = tok) = none) :
    resolve vocab tokens = [] := by
  rw [resolve, List.filterMap_eq_nil_iff]
  intro tok htok
  rw [h tok htok]
  rfl

theorem resolve_nil_vocab (tokens : List String) :
    resolve [] tokens = [] := by
  apply resolve_eq_nil_of_misses
  intro tok _
  rfl

theorem mem_resolve_lt (out : TokenizeOutput) (hWF : out.WF)
    (tokens : List String) (t : ℕ) (ht : t ∈ resolve out.vocab tokens) :
    t < out.vocab.length := by
  rcases List.mem_filterMap.mp ht with ⟨tok, _, hfind⟩
  cases hfp : out.vocab.find? (fun p => p.1 = tok) with
  | none =>
      rw [hfp] at hfind
      exact Option.noConfusion hfind
  | some p =>
      rw [hfp] at hfind
      have hp2 : p.2 = t := by
        simpa using hfind
      have hmem := List.mem_of_find?_eq_some hfp
      exact hp2 ▸ hWF.2.1 p hmem

theorem corpus_ne_nil_of_resolve (out : TokenizeOutput) (hWF : out.WF)
    (tokens : List String) (hne : resolve out.vocab tokens ≠ []) :
    out.corpus ≠ [] := by
  rcases List.exists_mem_of_ne_nil _ hne with ⟨t, ht⟩
  have hlt := mem_resolve_lt out hWF tokens t ht
  rcases hWF.2.2 t hlt with ⟨doc, hdoc, _⟩
  intro hnil
  rw [hnil] at hdoc
  exact (List.not_mem_nil doc) hdoc

theorem length_select_top {K : Type} [LinearOrderedField K]
    (k : ℕ) (l : List (ℕ × K)) :
    (select_top k l).length = min k l.length := by
  rw [select_top, List.length_take,
    (List.perm_insertionSort (fun a b => b.2 ≤ a.2) l).length_eq]

theorem select_top_subset {K : Type} [LinearOrderedField K]
    (k : ℕ) (l : List (ℕ × K)) (p : ℕ × K) (hp : p ∈ select_top k l) :
    p ∈ l := by
  have hsub := List.take_sublist k (l.insertionSort (fun a b => b.2 ≤ a.2))
  exact (List.perm_insertionSort (fun a b => b.2 ≤ a.2) l).mem_iff.mp
    (hsub.subset hp)

theorem select_top_all {K : Type} [LinearOrderedField K]
    (k : ℕ) (l : List (ℕ × K)) (hk : l.length ≤ k) :
    (select_top k l).Perm l := by
  rw [select_top, List.take_of_length_le
    (by rwa [(List.perm_insertionSort (fun a b => b.2 ≤ a.2) l).length_eq])]
  exact List.perm_insertionSort (fun a b => b.2 ≤ a.2) l

/-! ### Characterization of the non-panicking query path -/

theorem internal_index_vocab {K : Type} [LinearOrderedField K]
    (log : ℕ → K) (k1 b : K) (out : TokenizeOutput) :
    (internal_index log k1 b out).vocab = out.vocab := rfl

theorem internal_index_n_docs {K : Type} [LinearOrderedField K]
    (log : ℕ → K) (k1 b : K) (out : TokenizeOutput) :
    (internal_index log k1 b out).n_docs = out.corpus.length := rfl

theorem new_vocab {K : Type} (k1 b : K) : (Retriever.new k1 b).vocab = [] := rfl

theorem internal_top_n_pos {K : Type} [LinearOrderedField K]
    (r : Retriever K) (Q : List ℕ) (n : ℕ)
    (hQ : Q ≠ []) (hk : min n r.n_docs ≠ 0) :
    internal_top_n r Q n
      = some (select_top (min n r.n_docs)
          (accumulate_scores r.score_matrix r.n_docs Q).enum) := by
  rw [internal_top_n, if_neg hQ, if_neg hk]

/-! ### Concrete fixtures used to instantiate the theorems -/

/-- A tiny concrete tokenizer output: two documents `[0]` and `[0, 1]` over a
two-word vocabulary. -/
def out2 : TokenizeOutput := ⟨[[0], [0, 1]], [("a", 0), ("b", 1)]⟩

/-- A placeholder logarithm for rational-valued instantiations; the
structural theorems never inspect the logarithm's values. -/
def qlog : ℕ → ℚ := fun _ => 0

/-- A concrete rational-valued retriever indexed over `out2` with
k1 = 3/2, b = 3/4. -/
def rq : Retriever ℚ := internal_index qlog (3/2) (3/4) out2

/-! ### The claims -/

/-- C5: for every retriever state and every query whose tokens all miss the
vocabulary (including the empty query), `top_n` returns the empty sequence,
for every `n`. -/
theorem top_n_empty_of_vocab_misses {K : Type} [LinearOrderedField K]
    (r : Retriever K) (tokens : List String) (n : ℕ)
    (h : ∀ tok ∈ tokens, r.vocab.find? (fun p => p.1 = tok) = none) :
    top_n r tokens n = some [] := by
  rw [top_n, resolve_eq_nil_of_misses _ _ h, internal_top_n, if_pos rfl]

theorem top_n_empty_of_vocab_misses_witness :
    (∀ tok ∈ ["zz"], rq.vocab.find? (fun p => p.1 = tok) = none) ∧
      top_n rq ["zz"] 3 = some [] :=
  ⟨by decide, top_n_empty_of_vocab_misses rq ["zz"] 3 (by decide)⟩

/-- C3 (refuted: code bug): on the concrete retriever `rq`, querying the
in-vocabulary token "a" with n = 0 makes `internal_top_n` reach
`kth_by(&mut indexed_scores, k - 1, ..)` with `k = 0`: the `usize`
subtraction underflows and the call panics (modelled as `none`), whereas the
spec demands normal termination with the empty result. -/
theorem top_n_zero_panics : top_n rq ["a"] 0 = none := by
  decide

/-- C4 counterexample: on `rq` (two indexed documents), the out-of-vocabulary
query "zz" with n = 1 returns the empty sequence of length 0, not
min 1 2 = 1 as the claim demands for all queries. -/
theorem top_n_count_counterexample :
    (top_n rq ["zz"] 1).map List.length ≠ some (min 1 rq.n_docs) := by
  decide

/-- C4 (amended): for every query that resolves to at least one in-vocabulary
term and every n ≥ 1, `top_n` returns exactly min n N pairs, where N is the
number of indexed documents; in particular n > N yields N results.  (The
original claim fails for queries with no in-vocabulary term, which return the
empty sequence, and for n = 0, which panics.) -/
theorem top_n_count_amended {K : Type} [LinearOrderedField K]
    (log : ℕ → K) (k1 b : K) (out : TokenizeOutput) (hWF : out.WF)
    (tokens : List String) (n : ℕ)
    (hne : resolve out.vocab tokens ≠ []) (hn : 1 ≤ n) :
    (top_n (internal_index log k1 b out) tokens n).map List.length
      = some (min n out.corpus.length) := by
  have hN : 0 < out.corpus.length :=
    List.length_pos.mpr (corpus_ne_nil_of_resolve out hWF tokens hne)
  have hk : min n (internal_index log k1 b out).n_docs ≠ 0 := by
    rw [internal_index_n_docs]
    omega
  rw [top_n, internal_index_vocab, internal_top_n_pos _ _ _ hne hk]
  simp only [Option.map_some']
  rw [length_select_top, List.enum_length, length_accumulate,
    internal_index_n_docs]
  congr 1
  omega

theorem top_n_count_amended_witness :
    out2.WF ∧ resolve out2.vocab ["a"] ≠ [] ∧ 1 ≤ 5 ∧
      (top_n (internal_index qlog (3/2) (3/4) out2) ["a"] 5).map List.length
        = some (min 5 out2.corpus.length) :=
  ⟨by decide, by decide, by decide,
    top_n_count_amended qlog (3/2) (3/4) out2 (by decide) ["a"] 5
      (by decide) (by decide)⟩

/-- C8: `top_n_batched` is semantically equivalent to mapping `top_n` over
the query sequence: same length, and the i-th output is exactly
`top_n(queries[i], n)` (here even syntactic equality of the results, which
subsumes the claimed multiset equality), output order matching input order. -/
theorem top_n_batched_eq_map {K : Type} [LinearOrderedField K]
    (r : Retriever K) (queries : List (List String)) (n : ℕ) :
    (top_n_batched r queries n).length = queries.length ∧
      ∀ i, i < queries.length →
        (top_n_batched r queries n).getD i none = top_n r (queries.getD i []) n := by
  constructor
  · rw [top_n_batched, List.length_map]
  · intro i hi
    rw [top_n_batched, List.getD_eq_getElem _ _ (by simpa using hi),
      List.getElem_map, List.getD_eq_getElem _ _ hi]

theorem top_n_batched_eq_map_witness :
    (0 < [["a"], ["zz"]].length) ∧
      (top_n_batched rq [["a"], ["zz"]] 1).getD 0 none = top_n rq ["a"] 1 :=
  ⟨by decide, (top_n_batched_eq_map rq [["a"], ["zz"]] 1).2 0 (by decide)⟩

/-- C9: indexing an empty corpus produces an empty retriever (N = 0, empty
score matrix), and in every N = 0 state — the freshly constructed retriever
or the one indexed with the empty corpus (whose tokenizer output is the
empty corpus and empty vocabulary, per the tokenizer contract) — every query
returns the empty result for every n. -/
theorem empty_corpus_empty_retriever {K : Type} [LinearOrderedField K]
    (log : ℕ → K) (k1 b : K) :
    ((Retriever.new k1 b : Retriever K).n_docs = 0 ∧
      (Retriever.new k1 b : Retriever K).score_matrix.nnz = 0 ∧
      ∀ (tokens : List String) (n : ℕ),
        top_n (Retriever.new k1 b : Retriever K) tokens n = some []) ∧
    ((internal_index log k1 b ⟨[], []⟩).n_docs = 0 ∧
      (internal_index log k1 b ⟨[], []⟩).score_matrix.nnz = 0 ∧
      ∀ (tokens : List String) (n : ℕ),
        top_n (internal_index log k1 b ⟨[], []⟩) tokens n = some []) := by
  refine ⟨⟨rfl, rfl, ?_⟩, ⟨rfl, rfl, ?_⟩⟩
  · intro tokens n
    rw [top_n, new_vocab, resolve_nil_vocab, internal_top_n, if_pos rfl]
  · intro tokens n
    rw [top_n, internal_index_vocab]
    show internal_top_n _ (resolve [] tokens) n = some []
    rw [resolve_nil_vocab, internal_top_n, if_pos rfl]

/-- C10: whenever `top_n` returns a result, the returned DocIds are pairwise
distinct and each lies in [0, N); no document appears twice (proved for every
returned result, empty or not, and for every retriever state). -/
theorem top_n_docids_distinct {K : Type} [LinearOrderedField K]
    (r : Retriever K) (Q : List ℕ) (n : ℕ) (res : List (ℕ × K))
    (h : internal_top_n r Q n = some res) :
    (res.map Prod.fst).Nodup ∧ ∀ p ∈ res, p.1 < r.n_docs := by
  by_cases hQ : Q = []
  · rw [internal_top_n, if_pos hQ, Option.some_inj] at h
    subst h
    exact ⟨List.nodup_nil, by intro p hp; exact absurd hp (List.not_mem_nil p)⟩
  · by_cases hk : min n r.n_docs = 0
    · rw [internal_top_n, if_neg hQ, if_pos hk] at h
      exact Option.noConfusion h
    · rw [internal_top_n_pos _ _ _ hQ hk, Option.some_inj] at h
      subst h
      constructor
      · rw [select_top, List.map_take]
        apply List.Sublist.nodup (List.take_sublist _ _)
        have hperm := (List.perm_insertionSort (fun a b => b.2 ≤ a.2)
          (accumulate_scores r.score_matrix r.n_docs Q).enum).map Prod.fst
        rw [hperm.nodup_iff, List.enum_map_fst]
        exact List.nodup_range _
      · intro p hp
        have hmem := select_top_subset _ _ _ hp
        have hidx := List.mem_enum_iff_getElem?.mp hmem
        have hlt : p.1 < (accumulate_scores r.score_matrix r.n_docs Q).length := by
          by_contra hge
          rw [List.getElem?_eq_none (by omega)] at hidx
          exact Option.noConfusion hidx
        rwa [length_accumulate] at hlt

theorem rq_eval_top1 : internal_top_n rq [0] 1 = some [((0 : ℕ), (0 : ℚ))] := by
  norm_num [internal_top_n, rq, internal_index, built_matrix, to_csc,
    prepare_sparse_matrix, doc_triplets, term_count, score_val, idf_lookup,
    compute_idf_array, idf_entry, avg_doc_len, doc_frequencies, out2, qlog,
    accumulate_scores, add_column, CsMat.column, select_top,
    List.insertionSort, List.orderedInsert, List.range_succ, List.enum,
    List.enumFrom, List.dedup]

theorem top_n_docids_distinct_witness :
    (internal_top_n rq [0] 1 = some [((0 : ℕ), (0 : ℚ))]) ∧
      (([((0 : ℕ), (0 : ℚ))].map Prod.fst).Nodup ∧
        ∀ p ∈ [((0 : ℕ), (0 : ℚ))], p.1 < rq.n_docs) :=
  ⟨rq_eval_top1, top_n_docids_distinct rq [0] 1 [((0 : ℕ), (0 : ℚ))] rq_eval_top1⟩

/-- C6: the number of stored entries of the score matrix equals the sum of the
document frequencies over the vocabulary, and for every term t in the
vocabulary the column-t slice of the column-compressed matrix has length
exactly df(t).  (This also verifies that the running offset of
`prepare_sparse_matrix` fills the preallocated buffers of size
Σ_t df(t) exactly.) -/
theorem nnz_and_column_lengths {K : Type} [LinearOrderedField K]
    (log : ℕ → K) (k1 b : K) (out : TokenizeOutput) :
    (internal_index log k1 b out).score_matrix.nnz
        = ((List.range out.vocab.length).map (doc_frequencies out.corpus)).sum ∧
      ∀ t, t < out.vocab.length →
        ((internal_index log k1 b out).score_matrix.column t).length
          = doc_frequencies out.corpus t := by
  constructor
  · exact nnz_built k1 b (avg_doc_len out.corpus) (idf_lookup log out)
      out.corpus out.corpus.length out.vocab.length
  · intro t ht
    exact column_length_built k1 b (avg_doc_len out.corpus) (idf_lookup log out)
      out.corpus out.corpus.length out.vocab.length t ht

theorem nnz_and_column_lengths_witness :
    (1 < out2.vocab.length) ∧
      ((internal_index qlog (3/2) (3/4) out2).score_matrix.column 1).length
        = doc_frequencies out2.corpus 1 :=
  ⟨by decide,
    (nnz_and_column_lengths qlog (3/2) (3/4) out2).2 1 (by decide)⟩

/-- C7: the IDF vector built at indexing time has length V; for every term
with positive document frequency it stores exactly ln(N) − ln(df(t)), with no
clamping applied (for terms appearing in every document this is ln(N) − ln(N),
which `f32` rounding can take slightly negative; the code stores it as
computed), and every TermId of the vocabulary absent from the corpus
stores 0. -/
theorem idf_vector_spec (out : TokenizeOutput) :
    (compute_idf_array (K := ℝ) (fun m => Real.log m) out.vocab.length
        out.corpus.length (doc_frequencies out.corpus)).length
      = out.vocab.length ∧
    ∀ t, t < out.vocab.length →
      (0 < out.corpus.countP (fun doc => decide (t ∈ doc)) →
        (compute_idf_array (K := ℝ) (fun m => Real.log m) out.vocab.length
            out.corpus.length (doc_frequencies out.corpus)).getD t 0
          = Real.log out.corpus.length
            - Real.log (out.corpus.countP (fun doc => decide (t ∈ doc)))) ∧
      (out.corpus.countP (fun doc => decide (t ∈ doc)) = 0 →
        (compute_idf_array (K := ℝ) (fun m => Real.log m) out.vocab.length
            out.corpus.length (doc_frequencies out.corpus)).getD t 0 = 0) := by
  constructor
  · rw [compute_idf_array, List.length_map, List.length_range]
  · intro t ht
    rw [compute_idf_array, getD_map_range _ _ _ _ ht, idf_entry,
      doc_frequencies_eq_countP]
    constructor
    · intro hpos
      rw [if_neg (by omega)]
    · intro hzero
      rw [if_pos hzero]

theorem idf_vector_spec_witness :
    (1 < out2.vocab.length) ∧
      (0 < out2.corpus.countP (fun doc => decide (1 ∈ doc))) ∧
      (compute_idf_array (K := ℝ) (fun m => Real.log m) out2.vocab.length
          out2.corpus.length (doc_frequencies out2.corpus)).getD 1 0
        = Real.log out2.corpus.length
          - Real.log (out2.corpus.countP (fun doc => decide (1 ∈ doc))) :=
  ⟨by decide, by decide,
    ((idf_vector_spec out2).2 1 (by decide)).1 (by decide)⟩

/-- C2: every score that `top_n` associates with a document equals the sum,
over the resolved in-vocabulary TermId sequence taken with multiplicity
(duplicated query terms contribute once per occurrence), of the score-matrix
entries of that document; consequently for n = N the returned scores summed
over documents equal Σ_d Σ_{t ∈ Q} matrix[d, t]. -/
theorem query_scores_additive {K : Type} [LinearOrderedField K]
    (log : ℕ → K) (k1 b : K) (out : TokenizeOutput) (hWF : out.WF)
    (tokens : List String) :
    (∀ (n : ℕ) (res : List (ℕ × K)),
      top_n (internal_index log k1 b out) tokens n = some res →
      ∀ p ∈ res,
        p.2 = ((resolve out.vocab tokens).map
          (fun t => (internal_index log k1 b out).score_matrix.entry p.1 t)).sum) ∧
    (∀ res : List (ℕ × K),
      top_n (internal_index log k1 b out) tokens out.corpus.length = some res →
      (res.map Prod.snd).sum
        = ((List.range out.corpus.length).map
            (fun d => ((resolve out.vocab tokens).map
              (fun t =>
                (internal_index log k1 b out).score_matrix.entry d t)).sum)).sum) := by
  constructor
  · intro n res h p hp
    rw [top_n, internal_index_vocab] at h
    by_cases hQ : resolve out.vocab tokens = []
    · rw [internal_top_n, if_pos hQ, Option.some_inj] at h
      subst h
      exact absurd hp (List.not_mem_nil p)
    · by_cases hk : min n (internal_index log k1 b out).n_docs = 0
      · rw [internal_top_n, if_neg hQ, if_pos hk] at h
        exact Option.noConfusion h
      · rw [internal_top_n_pos _ _ _ hQ hk, Option.some_inj] at h
        subst h
        have hmem := select_top_subset _ _ _ hp
        have hidx := List.mem_enum_iff_getElem?.mp hmem
        have hlt : p.1 < (accumulate_scores
            (internal_index log k1 b out).score_matrix
            (internal_index log k1 b out).n_docs
            (resolve out.vocab tokens)).length := by
          by_contra hge
          rw [List.getElem?_eq_none (by omega)] at hidx
          exact Option.noConfusion hidx
        have hval : (accumulate_scores
            (internal_index log k1 b out).score_matrix
            (internal_index log k1 b out).n_docs
            (resolve out.vocab tokens)).getD p.1 0 = p.2 := by
          rw [List.getD_eq_getElem?_getD, hidx, Option.getD_some]
        rw [← hval,
          getD_accumulate _ _ _ _ (by rwa [length_accumulate] at hlt)]
  · intro res h
    rw [top_n, internal_index_vocab] at h
    by_cases hQ : resolve out.vocab tokens = []
    · rw [internal_top_n, if_pos hQ, Option.some_inj] at h
      subst h
      simp [hQ]
    · have hN : 0 < out.corpus.length :=
        List.length_pos.mpr (corpus_ne_nil_of_resolve out hWF tokens hQ)
      have hk : min out.corpus.length (internal_index log k1 b out).n_docs ≠ 0 := by
        rw [internal_index_n_docs]
        omega
      rw [internal_top_n_pos _ _ _ hQ hk, Option.some_inj] at h
      subst h
      have hperm := select_top_all
        (min out.corpus.length (internal_index log k1 b out).n_docs)
        ((accumulate_scores (internal_index log k1 b out).score_matrix
          (internal_index log k1 b out).n_docs (resolve out.vocab tokens)).enum)
        (by rw [List.enum_length, length_accumulate, internal_index_n_docs]; omega)
      rw [(hperm.map Prod.snd).sum_eq, List.enum_map_snd, sum_eq_sum_getD,
        length_accumulate, internal_index_n_docs]
      apply congrArg List.sum
      apply List.map_congr_left
      intro d hd
      exact getD_accumulate _ _ _ _ (List.mem_range.mp hd)

theorem rq_eval_topb :
    top_n rq ["b"] out2.corpus.length
      = some [((0 : ℕ), (0 : ℚ)), ((1 : ℕ), (0 : ℚ))] := by
  have hres : resolve rq.vocab ["b"] = [1] := by decide
  rw [top_n, hres]
  norm_num [internal_top_n, rq, internal_index, built_matrix, to_csc,
    prepare_sparse_matrix, doc_triplets, term_count, score_val, idf_lookup,
    compute_idf_array, idf_entry, avg_doc_len, doc_frequencies, out2, qlog,
    accumulate_scores, add_column, CsMat.column, select_top,
    List.insertionSort, List.orderedInsert, List.range_succ, List.enum,
    List.enumFrom, List.dedup]

theorem query_scores_additive_witness :
    out2.WF ∧
      (([((0 : ℕ), (0 : ℚ)), ((1 : ℕ), (0 : ℚ))].map Prod.snd).sum
        = ((List.range out2.corpus.length).map
            (fun d => ((resolve out2.vocab ["b"]).map
              (fun t => (internal_index qlog (3/2) (3/4)
                out2).score_matrix.entry d t)).sum)).sum) :=
  ⟨by decide,
    (query_scores_additive qlog (3/2) (3/4) out2 (by decide) ["b"]).2
      [((0 : ℕ), (0 : ℚ)), ((1 : ℕ), (0 : ℚ))] rq_eval_topb⟩

theorem mem_getD_lt (corpus : Corpus) (d t : ℕ) (h : t ∈ corpus.getD d []) :
    d < corpus.length := by
  by_contra hge
  rw [List.getD_eq_default _ _ (by omega)] at h
  exact List.not_mem_nil t h

theorem getD_mem_corpus (corpus : Corpus) (d : ℕ) (h : d < corpus.length) :
    corpus.getD d [] ∈ corpus := by
  rw [List.getD_eq_getElem _ _ h]
  exact List.getElem_mem h

theorem column_mem_iff_built {K : Type} [LinearOrderedField K]
    (log : ℕ → K) (k1 b : K) (out : TokenizeOutput) (hWF : out.WF) (d t : ℕ) :
    (∃ p ∈ (internal_index log k1 b out).score_matrix.column t, p.1 = d)
      ↔ (d < out.corpus.length ∧ t ∈ out.corpus.getD d []) := by
  by_cases htV : t < out.vocab.length
  · show (∃ p ∈ (built_matrix log k1 b out).column t, p.1 = d) ↔ _
    rw [built_matrix, column_to_csc _ _ _ _ htV]
    constructor
    · rintro ⟨p, hp, hpd⟩
      rcases List.mem_map.mp hp with ⟨e, hef, hpe⟩
      rcases List.mem_filter.mp hef with ⟨het, hcol⟩
      have hed : e.1 = d := by
        rw [← hpd, ← hpe]
      have hecol : e.2.1 = t := of_decide_eq_true hcol
      have hin : e ∈ (prepare_sparse_matrix k1 b (avg_doc_len out.corpus)
          (idf_lookup log out) 0 out.corpus).filter
          (fun e => decide (e.1 = d) && decide (e.2.1 = t)) :=
        List.mem_filter.mpr ⟨het, by rw [hed, hecol]; simp⟩
      have hpair := prepare_filter_pair k1 b (avg_doc_len out.corpus)
        (idf_lookup log out) t out.corpus 0 d
      simp only [Nat.zero_add] at hpair
      rw [hpair] at hin
      by_cases hmem : t ∈ out.corpus.getD d []
      · exact ⟨mem_getD_lt _ _ _ hmem, hmem⟩
      · rw [if_neg hmem] at hin
        exact absurd hin (List.not_mem_nil e)
    · rintro ⟨hd, hmem⟩
      have hpair := prepare_filter_pair k1 b (avg_doc_len out.corpus)
        (idf_lookup log out) t out.corpus 0 d
      simp only [Nat.zero_add] at hpair
      rw [if_pos hmem] at hpair
      have hself : ((d, t, score_val k1 b (avg_doc_len out.corpus)
          (idf_lookup log out) t ((out.corpus.getD d []).count t)
          (out.corpus.getD d []).length) : ℕ × ℕ × K)
          ∈ (prepare_sparse_matrix k1 b (avg_doc_len out.corpus)
            (idf_lookup log out) 0 out.corpus).filter
            (fun e => decide (e.1 = d) && decide (e.2.1 = t)) := by
        rw [hpair]
        exact List.mem_singleton.mpr rfl
      rcases List.mem_filter.mp hself with ⟨htrip, _⟩
      refine ⟨(d, score_val k1 b (avg_doc_len out.corpus) (idf_lookup log out)
        t ((out.corpus.getD d []).count t) (out.corpus.getD d []).length),
        ?_, rfl⟩
      apply List.mem_map.mpr
      refine ⟨_, List.mem_filter.mpr ⟨htrip, by simp⟩, rfl⟩
  · constructor
    · rintro ⟨p, hp, _⟩
      have hcol : (internal_index log k1 b out).score_matrix.column t = [] := by
        show (built_matrix log k1 b out).column t = []
        rw [built_matrix]
        exact column_to_csc_oob _ _ _ _ (by omega)
      rw [hcol] at hp
      exact absurd hp (List.not_mem_nil p)
    · rintro ⟨hd, hmem⟩
      exact absurd (hWF.1 _ (getD_mem_corpus _ _ hd) t hmem) htV

/-- C1: for every pair (d, t) holding a stored entry of the score matrix —
equivalently, by the first conjunct, every d < N and term t occurring in
document d — the stored value equals
idf(t) · (tf(d,t) · (k1+1)) / (tf(d,t) + k1 · (1 − b + b · len(d)/avg_len)),
with idf(t) = ln N − ln df(t), tf(d,t) the occurrence count of t in document
d, len(d) the token count of document d counting duplicates, and avg_len the
arithmetic mean of the document lengths.  The single-precision arithmetic of
the implementation is idealized as exact real arithmetic, under which the
equality is exact (hence well within the claimed 1e-5 relative tolerance). -/
theorem stored_score_formula (k1 b : ℝ) (out : TokenizeOutput)
    (hWF : out.WF) (d t : ℕ) :
    ((∃ p ∈ (internal_index (fun m : ℕ => Real.log m) k1 b
          out).score_matrix.column t, p.1 = d)
        ↔ (d < out.corpus.length ∧ t ∈ out.corpus.getD d [])) ∧
    (t ∈ out.corpus.getD d [] →
      (internal_index (fun m : ℕ => Real.log m) k1 b out).score_matrix.entry d t
        = (Real.log out.corpus.length
            - Real.log (out.corpus.countP (fun doc => decide (t ∈ doc))))
          * ((((out.corpus.getD d []).count t : ℝ) * (k1 + 1))
            / (((out.corpus.getD d []).count t : ℝ)
              + k1 * (1 - b + b * ((out.corpus.getD d []).length : ℝ)
                / ((out.corpus.map (fun doc => (doc.length : ℝ))).sum
                  / (out.corpus.length : ℝ)))))) := by
  constructor
  · exact column_mem_iff_built (fun m : ℕ => Real.log m) k1 b out hWF d t
  · intro hmem
    have hd : d < out.corpus.length := mem_getD_lt _ _ _ hmem
    have htV : t < out.vocab.length := hWF.1 _ (getD_mem_corpus _ _ hd) t hmem
    show (built_matrix (fun m : ℕ => Real.log m) k1 b out).entry d t = _
    rw [built_matrix, entry_built k1 b (avg_doc_len out.corpus)
      (idf_lookup (fun m : ℕ => Real.log m) out) out.corpus
      out.vocab.length d t htV, if_pos hmem, score_val]
    have hidf : idf_lookup (fun m : ℕ => Real.log m) out t
        = Real.log out.corpus.length
          - Real.log (out.corpus.countP (fun doc => decide (t ∈ doc))) := by
      show (compute_idf_array _ _ _ _).getD t 0 = _
      rw [compute_idf_array, getD_map_range _ _ _ _ htV, idf_entry,
        doc_frequencies_eq_countP]
      rw [if_neg ?hdf]
      case hdf =>
        have hpos : 0 < out.corpus.countP (fun doc => decide (t ∈ doc)) :=
          List.countP_pos_iff.mpr
            ⟨out.corpus.getD d [], getD_mem_corpus _ _ hd, by simpa using hmem⟩
        omega
    have havg : (avg_doc_len out.corpus : ℝ)
        = (out.corpus.map (fun doc => (doc.length : ℝ))).sum
          / (out.corpus.length : ℝ) := by
      rw [avg_doc_len, List.length_map]
    rw [hidf, havg]

theorem stored_score_formula_witness :
    out2.WF ∧ (1 ∈ out2.corpus.getD 1 []) ∧
      ((internal_index (fun m : ℕ => Real.log m) (3/2) (3/4)
          out2).score_matrix.entry 1 1
        = (Real.log out2.corpus.length
            - Real.log (out2.corpus.countP (fun doc => decide (1 ∈ doc))))
          * ((((out2.corpus.getD 1 []).count 1 : ℝ) * ((3/2 : ℝ) + 1))
            / (((out2.corpus.getD 1 []).count 1 : ℝ)
              + (3/2 : ℝ) * (1 - (3/4 : ℝ)
                + (3/4 : ℝ) * ((out2.corpus.getD 1 []).length : ℝ)
                / ((out2.corpus.map (fun doc => (doc.length : ℝ))).sum
                  / (out2.corpus.length : ℝ)))))) :=
  ⟨by decide, by decide,
    (stored_score_formula (3/2) (3/4) out2 (by decide) 1 1).2 (by decide)⟩

end BM25
